import Mathlib

/-!
# Verification of the LinguaSync provider-orchestration core

Shallow embedding of the orchestration layer of `src/services/geminiService.ts`:
the retry executor (`withRetry`), the MIME resolver (`getCorrectMimeType`),
the segment merger (`mergeShortSegments`), the response normalizer
(`cleanAndParseJson`) and the define-word provider router (`getWordDefinition`),
together with theorems settling the specification's claims about them.

JavaScript strings are modelled as Lean `String`s; the whitespace class of the
regexes involved is modelled by `Char.isWhitespace` (space, tab, CR, LF), which
agrees with JavaScript `\s` on the ASCII inputs at stake.
-/

namespace LinguaSync

/-- ASCII lower-casing of one character (JavaScript `toLowerCase` restricted to
the ASCII range, which is all the inputs at stake). -/
def charToLower (c : Char) : Char :=
  if 'A' ≤ c ∧ c ≤ 'Z' then Char.ofNat (c.toNat + 32) else c

/-- ASCII lower-casing of a string (JavaScript `String.prototype.toLowerCase`). -/
def strToLower (s : String) : String :=
  String.mk (s.toList.map charToLower)

/-- Returns `true` iff `s` starts with `pat` (JavaScript `String.prototype.startsWith`). -/
def strStartsWith (s pat : String) : Bool :=
  pat.toList.isPrefixOf s.toList

/-- Returns `true` iff `pat` occurs as a contiguous run inside `l`. -/
def listContains (pat : List Char) : List Char → Bool
  | [] => pat.isEmpty
  | c :: cs => pat.isPrefixOf (c :: cs) || listContains pat cs

/-- Returns `true` iff `pat` occurs as a contiguous substring of `s`
(JavaScript `String.prototype.includes`). -/
def strContains (s pat : String) : Bool :=
  listContains pat.toList s.toList

/-- Splits a list of characters at every occurrence of `sep`
(JavaScript `String.prototype.split` with a single-character separator:
`"a..b".split('.') = ["a","","b"]`, `"".split('.') = [""]`). -/
def splitOnChar (sep : Char) : List Char → List (List Char)
  | [] => [[]]
  | c :: cs =>
    if c = sep then [] :: splitOnChar sep cs
    else
      match splitOnChar sep cs with
      | [] => [[c]]
      | h :: t => (c :: h) :: t

/-- The fixed extension → MIME table of `getCorrectMimeType`
(`knownMimeTypes` in `src/services/geminiService.ts`). -/
def knownMimeTypes : List (String × String) :=
  [("mp3", "audio/mp3"),
   ("wav", "audio/wav"),
   ("flac", "audio/flac"),
   ("m4a", "audio/mp4"),
   ("aac", "audio/aac"),
   ("ogg", "audio/ogg"),
   ("oga", "audio/ogg"),
   ("webm", "audio/webm"),
   ("mp4", "audio/mp4")]

/-- Function `getCorrectMimeType` from `src/services/geminiService.ts`: a browser `File`
is modelled by its `name` and declared content-type `ftype`.  If the declared
type is non-empty and starts with `audio/` or `video/` it is trusted verbatim;
otherwise the text after the final `.` of the filename (the whole filename when
it has no `.`, per `split('.').pop()`) is lower-cased and looked up in
`knownMimeTypes`, defaulting to `audio/mp3`. -/
def getCorrectMimeType (name ftype : String) : String :=
  if ftype ≠ "" ∧ (strStartsWith ftype "audio/" ∨ strStartsWith ftype "video/") then
    ftype
  else
    let ext := strToLower (String.mk ((splitOnChar '.' name.toList).getLastD []))
    if ext ≠ "" then
      match knownMimeTypes.lookup ext with
      | some m => m
      | none => "audio/mp3"
    else "audio/mp3"

theorem splitOnChar_ne_nil (sep : Char) (cs : List Char) :
    splitOnChar sep cs ≠ [] := by
  induction cs with
  | nil => simp [splitOnChar]
  | cons c cs ih =>
    by_cases hc : c = sep
    · simp [splitOnChar, hc]
    · cases hsp : splitOnChar sep cs <;> simp [splitOnChar, hc, hsp]

theorem splitOnChar_of_not_mem (sep : Char) (cs : List Char)
    (h : sep ∉ cs) : splitOnChar sep cs = [cs] := by
  induction cs with
  | nil => rfl
  | cons c cs ih =>
    have hc : ¬ c = sep := fun he => h (he ▸ List.mem_cons_self _ _)
    rw [show splitOnChar sep (c :: cs) =
        (match splitOnChar sep cs with
         | [] => [[c]]
         | h :: t => (c :: h) :: t) by simp [splitOnChar, hc]]
    rw [ih (fun hm => h (List.mem_cons_of_mem _ hm))]

/-- The lower-cased text after the final `.` of a filename, as computed by
`getCorrectMimeType` (`file.name.split('.').pop()?.toLowerCase()`). -/
def extensionOf (name : String) : String :=
  strToLower (String.mk ((splitOnChar '.' name.toList).getLastD []))

theorem getCorrectMimeType_of_declared (name ftype : String)
    (hne : ftype ≠ "")
    (hpre : strStartsWith ftype "audio/" ∨ strStartsWith ftype "video/") :
    getCorrectMimeType name ftype = ftype := by
  rw [getCorrectMimeType, if_pos ⟨hne, hpre⟩]

theorem getCorrectMimeType_of_undeclared (name ftype : String)
    (h : ftype = "" ∨ (¬ strStartsWith ftype "audio/" ∧ ¬ strStartsWith ftype "video/")) :
    getCorrectMimeType name ftype =
      (knownMimeTypes.lookup (extensionOf name)).getD "audio/mp3" := by
  have hneg : ¬ (ftype ≠ "" ∧ (strStartsWith ftype "audio/" ∨ strStartsWith ftype "video/")) := by
    rcases h with h | ⟨ha, hv⟩
    · exact fun hc => hc.1 h
    · rintro ⟨-, hor⟩
      rcases hor with hor | hor
      · exact ha hor
      · exact hv hor
  rw [getCorrectMimeType, if_neg hneg]
  show (if extensionOf name ≠ "" then _ else _) = _
  by_cases he : extensionOf name = ""
  · rw [if_neg (fun hc => hc he), he]
    rfl
  · rw [if_pos he]
    show (match knownMimeTypes.lookup (extensionOf name) with
          | some m => m
          | none => "audio/mp3") =
        (knownMimeTypes.lookup (extensionOf name)).getD "audio/mp3"
    cases knownMimeTypes.lookup (extensionOf name) <;> rfl

/-- **C5.** The MIME resolver trusts a non-empty declared `audio/*` or `video/*`
content-type verbatim; otherwise it lower-cases the text after the final `.` of
the filename and looks it up in the fixed extension table, defaulting to
`audio/mp3` on a miss.  Concretely, `("clip.M4A", "") ↦ "audio/mp4"`,
`("x.bin", "application/octet-stream") ↦ "audio/mp3"` and
`("a.wav", "audio/x-custom") ↦ "audio/x-custom"`. -/
theorem getCorrectMimeType_resolution :
    (∀ name ftype : String, ftype ≠ "" →
      (strStartsWith ftype "audio/" ∨ strStartsWith ftype "video/") →
      getCorrectMimeType name ftype = ftype) ∧
    (∀ name ftype : String,
      (ftype = "" ∨ (¬ strStartsWith ftype "audio/" ∧ ¬ strStartsWith ftype "video/")) →
      getCorrectMimeType name ftype =
        (knownMimeTypes.lookup (extensionOf name)).getD "audio/mp3") ∧
    knownMimeTypes =
      [("mp3", "audio/mp3"), ("wav", "audio/wav"), ("flac", "audio/flac"),
       ("m4a", "audio/mp4"), ("aac", "audio/aac"), ("ogg", "audio/ogg"),
       ("oga", "audio/ogg"), ("webm", "audio/webm"), ("mp4", "audio/mp4")] ∧
    getCorrectMimeType "clip.M4A" "" = "audio/mp4" ∧
    getCorrectMimeType "x.bin" "application/octet-stream" = "audio/mp3" ∧
    getCorrectMimeType "a.wav" "audio/x-custom" = "audio/x-custom" :=
  ⟨getCorrectMimeType_of_declared, getCorrectMimeType_of_undeclared,
   rfl, by decide, by decide, by decide⟩

/-- Witness for C5: the general clauses of `getCorrectMimeType_resolution`
applied at the spec's concrete inputs, hypotheses discharged by evaluation. -/
theorem getCorrectMimeType_resolution_witness :
    getCorrectMimeType "a.wav" "audio/x-custom" = "audio/x-custom" ∧
    getCorrectMimeType "x.bin" "application/octet-stream" =
      (knownMimeTypes.lookup (extensionOf "x.bin")).getD "audio/mp3" :=
  ⟨getCorrectMimeType_resolution.1 "a.wav" "audio/x-custom" (by decide)
      (Or.inl (by decide)),
   getCorrectMimeType_resolution.2.1 "x.bin" "application/octet-stream"
      (Or.inr ⟨by decide, by decide⟩)⟩

/-- **C10.** When the declared content-type is not trusted and the filename
contains no `.`, the resolver looks up the entire lower-cased filename in the
extension table (because `split('.')` of a dot-free name yields the whole name),
so `("ogg", "") ↦ "audio/ogg"`, and an unknown dot-free name such as
`("xyz", "") ↦ "audio/mp3"`. -/
theorem getCorrectMimeType_extensionless :
    (∀ name ftype : String, '.' ∉ name.toList →
      (ftype = "" ∨ (¬ strStartsWith ftype "audio/" ∧ ¬ strStartsWith ftype "video/")) →
      getCorrectMimeType name ftype =
        (knownMimeTypes.lookup (strToLower name)).getD "audio/mp3") ∧
    getCorrectMimeType "ogg" "" = "audio/ogg" ∧
    getCorrectMimeType "xyz" "" = "audio/mp3" := by
  refine ⟨fun name ftype hdot h => ?_, by decide, by decide⟩
  rw [getCorrectMimeType_of_undeclared name ftype h]
  have : extensionOf name = strToLower name := by
    rw [extensionOf, splitOnChar_of_not_mem '.' name.toList hdot]
    rfl
  rw [this]

/-- Witness for C10: the general clause of `getCorrectMimeType_extensionless`
applied at the dot-free filename `"ogg"` with empty declared type. -/
theorem getCorrectMimeType_extensionless_witness :
    getCorrectMimeType "ogg" "" =
      (knownMimeTypes.lookup (strToLower "ogg")).getD "audio/mp3" :=
  getCorrectMimeType_extensionless.1 "ogg" "" (by decide) (Or.inl rfl)

/-! ## Retry executor (`withRetry`) -/

/-- The retryability classifier of `withRetry`: a failure message is retryable
iff it contains `"internal error"` case-insensitively, or the token `"500"` or
`"503"` anywhere (`error.message?.toLowerCase().includes("internal error") ||
error.message?.includes("500") || error.message?.includes("503")`). -/
def isInternalError (msg : String) : Bool :=
  strContains (strToLower msg) "internal error" ||
    strContains msg "500" || strContains msg "503"

/-- Observable trace of one `withRetry` run: the final outcome, the number of
attempts performed, and the list of waits (in ms) between attempts. -/
structure RetryTrace (T : Type) where
  result : Except String T
  attempts : Nat
  delays : List Nat

/-- The loop body of `withRetry` (`for (let i = 0; i < retries; i++)`), with
the operation modelled as a function `fn` from the attempt index to its
outcome.  The structural `rem` argument is the number of loop iterations left
(`retries - i`); the JS loop falls through only when `retries = 0`, where it
throws an undefined `lastError`, modelled as `Except.error ""`.  On a failure
that is retryable and not on the last attempt, the executor waits the current
delay and doubles it (`delayMs *= 2`). -/
def withRetryGo {T : Type} (fn : Nat → Except String T) (retries : Nat) :
    Nat → Nat → Nat → RetryTrace T
  | _, _, 0 => ⟨Except.error "", 0, []⟩
  | i, d, rem + 1 =>
    match fn i with
    | Except.ok v => ⟨Except.ok v, i + 1, []⟩
    | Except.error e =>
      if isInternalError e ∧ i < retries - 1 then
        let r := withRetryGo fn retries (i + 1) (d * 2) rem
        ⟨r.result, r.attempts, d :: r.delays⟩
      else ⟨Except.error e, i + 1, []⟩

/-- Function `withRetry` from `src/services/geminiService.ts` (defaults in the source:
`retries = 3`, `delayMs = 1000`). -/
def withRetry {T : Type} (fn : Nat → Except String T) (retries d : Nat) :
    RetryTrace T :=
  withRetryGo fn retries 0 d retries

theorem retry_delays_cons (d n : Nat) :
    d :: (List.range n).map (fun j => d * 2 * 2 ^ j) =
      (List.range (n + 1)).map (fun j => d * 2 ^ j) := by
  rw [List.range_succ_eq_map, List.map_cons, List.map_map]
  simp only [List.cons.injEq, pow_zero, mul_one, true_and]
  refine List.map_congr_left fun j _ => ?_
  simp only [Function.comp_apply, pow_succ]
  ring

theorem withRetryGo_spec_ok {T : Type} (fn : Nat → Except String T)
    (retries : Nat) :
    ∀ (n i d : Nat) (v : T), i + n < retries →
    (∀ j, i ≤ j → j < i + n → ∃ e, fn j = Except.error e ∧ isInternalError e = true) →
    fn (i + n) = Except.ok v →
    withRetryGo fn retries i d (retries - i) =
      ⟨Except.ok v, i + n + 1, (List.range n).map (fun j => d * 2 ^ j)⟩ := by
  intro n
  induction n with
  | zero =>
    intro i d v hk _ hok
    obtain ⟨m, hm⟩ : ∃ m, retries - i = m + 1 := ⟨retries - i - 1, by omega⟩
    rw [hm]
    simp only [withRetryGo]
    rw [show fn i = Except.ok v from by simpa using hok]
    simp
  | succ n ih =>
    intro i d v hk hfail hok
    obtain ⟨m, hm⟩ : ∃ m, retries - i = m + 1 := ⟨retries - i - 1, by omega⟩
    obtain ⟨e, he, hre⟩ := hfail i (le_refl i) (by omega)
    rw [hm]
    simp only [withRetryGo]
    rw [he]
    dsimp only
    rw [if_pos ⟨hre, (by omega : i < retries - 1)⟩]
    have hm' : m = retries - (i + 1) := by omega
    rw [hm', ih (i + 1) (d * 2) v (by omega)
      (fun j h1 h2 => hfail j (by omega) (by omega))
      (by rw [show i + 1 + n = i + (n + 1) from by omega]; exact hok)]
    simp only [RetryTrace.mk.injEq]
    exact ⟨trivial, by omega, retry_delays_cons d n⟩

theorem withRetryGo_spec_fail {T : Type} (fn : Nat → Except String T)
    (retries : Nat) :
    ∀ (n i d : Nat), i < retries → retries - 1 - i = n →
    (∀ j, i ≤ j → j < retries → ∃ e, fn j = Except.error e ∧ isInternalError e = true) →
    ∃ e, fn (retries - 1) = Except.error e ∧
      withRetryGo fn retries i d (retries - i) =
        ⟨Except.error e, retries, (List.range n).map (fun j => d * 2 ^ j)⟩ := by
  intro n
  induction n with
  | zero =>
    intro i d hi hni hfail
    obtain ⟨e, he, _⟩ := hfail i (le_refl i) hi
    obtain ⟨m, hm⟩ : ∃ m, retries - i = m + 1 := ⟨retries - i - 1, by omega⟩
    refine ⟨e, by rw [show retries - 1 = i from by omega]; exact he, ?_⟩
    rw [hm]
    simp only [withRetryGo]
    rw [he]
    dsimp only
    rw [if_neg (fun hc => absurd hc.2 (by omega))]
    simp only [List.range_zero, List.map_nil, RetryTrace.mk.injEq]
    exact ⟨trivial, by omega, trivial⟩
  | succ n ih =>
    intro i d hi hni hfail
    obtain ⟨e, he, hre⟩ := hfail i (le_refl i) hi
    obtain ⟨m, hm⟩ : ∃ m, retries - i = m + 1 := ⟨retries - i - 1, by omega⟩
    obtain ⟨e', he', htr⟩ := ih (i + 1) (d * 2) (by omega) (by omega)
      (fun j h1 h2 => hfail j (by omega) h2)
    refine ⟨e', he', ?_⟩
    rw [hm]
    simp only [withRetryGo]
    rw [he]
    dsimp only
    rw [if_pos ⟨hre, (by omega : i < retries - 1)⟩]
    rw [show m = retries - (i + 1) from by omega, htr]
    simp only [RetryTrace.mk.injEq]
    exact ⟨trivial, trivial, retry_delays_cons d n⟩

/-- **C2.** The retry executor classifies a failure as retryable iff its
message contains `"internal error"` case-insensitively, or the token `"500"`
or `"503"` anywhere; a non-retryable failure on attempt 1 propagates
immediately with no second attempt (one attempt, no waits); a retryable
failure propagates only once the final attempt is exhausted (all `retries`
attempts are performed and the last error is surfaced). -/
theorem withRetry_classification {T : Type} :
    (∀ msg : String, isInternalError msg =
      (strContains (strToLower msg) "internal error" ||
        strContains msg "500" || strContains msg "503")) ∧
    (∀ (fn : Nat → Except String T) (retries d : Nat) (e : String),
      1 ≤ retries → fn 0 = Except.error e → isInternalError e = false →
      withRetry fn retries d = ⟨Except.error e, 1, []⟩) ∧
    (∀ (fn : Nat → Except String T) (retries d : Nat),
      1 ≤ retries →
      (∀ j, j < retries → ∃ e, fn j = Except.error e ∧ isInternalError e = true) →
      ∃ e, fn (retries - 1) = Except.error e ∧
        (withRetry fn retries d).result = Except.error e ∧
        (withRetry fn retries d).attempts = retries) := by
  refine ⟨fun msg => rfl, ?_, ?_⟩
  · intro fn retries d e hr h0 hni
    obtain ⟨m, hm⟩ : ∃ m, retries = m + 1 := ⟨retries - 1, by omega⟩
    rw [withRetry, hm]
    simp only [withRetryGo]
    rw [h0]
    dsimp only
    rw [if_neg (fun hc => by rw [hni] at hc; exact Bool.false_ne_true hc.1)]
  · intro fn retries d hr hfail
    obtain ⟨e, he, htr⟩ := withRetryGo_spec_fail fn retries (retries - 1) 0 d
      (by omega) (by omega) (fun j _ hj => hfail j hj)
    simp only [Nat.sub_zero] at htr
    exact ⟨e, he, by rw [withRetry, htr], by rw [withRetry, htr]⟩

/-- Witness for C2: a non-retryable failure (`"quota exceeded"`) on attempt 1
under the default policy propagates at once — one attempt, empty wait list. -/
theorem withRetry_classification_witness :
    withRetry (fun _ => (Except.error "quota exceeded" : Except String Nat))
      3 1000 = ⟨Except.error "quota exceeded", 1, []⟩ :=
  withRetry_classification.2.1 (fun _ => Except.error "quota exceeded")
    3 1000 "quota exceeded" (by omega) rfl (by decide)

/-- **C3.** Under a policy of `retries ≥ 1` attempts, an operation whose
failures are all retryable is attempted exactly `min retries k` times, where
`k` is the (1-indexed) attempt at which success first occurs — exactly
`retries` times when it never succeeds — and the wait after the `i`-th
attempt is `d * 2 ^ (i - 1)`: the waits recorded are
`[d, d*2, d*4, …]`, classic exponential backoff with multiplier 2 (the only
multiplier the code has; the source's defaults are 3 attempts and 1000 ms). -/
theorem withRetry_attempt_count_and_backoff {T : Type} :
    (∀ (fn : Nat → Except String T) (retries d k : Nat) (v : T),
      1 ≤ retries →
      (∀ j, j < k → ∃ e, fn j = Except.error e ∧ isInternalError e = true) →
      fn k = Except.ok v →
      (withRetry fn retries d).attempts = min retries (k + 1) ∧
      (withRetry fn retries d).delays =
        (List.range (min retries (k + 1) - 1)).map (fun j => d * 2 ^ j)) ∧
    (∀ (fn : Nat → Except String T) (retries d : Nat),
      1 ≤ retries →
      (∀ j, j < retries → ∃ e, fn j = Except.error e ∧ isInternalError e = true) →
      (withRetry fn retries d).attempts = retries ∧
      (withRetry fn retries d).delays =
        (List.range (retries - 1)).map (fun j => d * 2 ^ j)) := by
  constructor
  · intro fn retries d k v hr hfail hok
    by_cases hk : k < retries
    · have := withRetryGo_spec_ok fn retries k 0 d v (by omega)
        (fun j h1 h2 => hfail j (by omega)) (by simpa using hok)
      simp only [Nat.sub_zero, Nat.zero_add] at this
      rw [withRetry, this]
      constructor
      · show k + 1 = min retries (k + 1)
        omega
      · show (List.range k).map _ = _
        rw [show min retries (k + 1) - 1 = k from by omega]
    · obtain ⟨e, _, htr⟩ := withRetryGo_spec_fail fn retries (retries - 1) 0 d
        (by omega) (by omega) (fun j _ hj => hfail j (by omega))
      simp only [Nat.sub_zero] at htr
      rw [withRetry, htr]
      constructor
      · show retries = min retries (k + 1)
        omega
      · show (List.range (retries - 1)).map _ = _
        rw [show min retries (k + 1) - 1 = retries - 1 from by omega]
  · intro fn retries d hr hfail
    obtain ⟨e, _, htr⟩ := withRetryGo_spec_fail fn retries (retries - 1) 0 d
      (by omega) (by omega) (fun j _ hj => hfail j hj)
    simp only [Nat.sub_zero] at htr
    rw [withRetry, htr]
    exact ⟨rfl, rfl⟩

/-- Witness for C3: under the default policy (3 attempts, 1000 ms) an operation
that always fails with the retryable `"503"` is attempted exactly 3 times with
waits 1000 ms then 2000 ms. -/
theorem withRetry_attempt_count_and_backoff_witness :
    (withRetry (fun _ => (Except.error "503" : Except String Nat)) 3 1000).attempts = 3 ∧
    (withRetry (fun _ => (Except.error "503" : Except String Nat)) 3 1000).delays =
      (List.range 2).map (fun j => 1000 * 2 ^ j) :=
  withRetry_attempt_count_and_backoff.2 (fun _ => Except.error "503") 3 1000
    (by omega) (fun j _ => ⟨"503", rfl, by decide⟩)

/-! ## Segment merger (`mergeShortSegments`) -/

/-- One step of a JS-like `split(/\s+/)`: fold state is the list of pieces
built so far (front piece open) and whether the character just to the right
was whitespace, so that a maximal whitespace run acts as one separator and
boundary runs produce empty pieces, as in JavaScript. -/
def splitWsStep (c : Char) : List (List Char) × Bool → List (List Char) × Bool
  | (pieces, lastWs) =>
    if c.isWhitespace then
      if lastWs then (pieces, true) else ([] :: pieces, true)
    else
      match pieces with
      | [] => ([[c]], false)
      | p :: ps => ((c :: p) :: ps, false)

/-- JavaScript `s.split(/\s+/)`: split on maximal whitespace runs, keeping
empty boundary pieces (`"".split(/\s+/) = [""]`, `" a".split(/\s+/) = ["", "a"]`). -/
def splitWs (s : String) : List String :=
  ((s.toList.foldr splitWsStep ([[]], false)).1).map String.mk

/-- The word count used by the merger: `text.split(/\s+/).length`. -/
def wordCount (s : String) : Nat :=
  (splitWs s).length

/-- A transcription segment.  `types.ts` is not among the provided sources;
the record shape is modelled from the spec's data model (§3): timing bounds,
original text, translation, idiomatic rewrite and its explanation, and the
caller-owned favorite flag.  Times are rationals standing for the JS float
seconds (all values involved are exact decimals). -/
structure TranscriptionSegment where
  start : ℚ
  «end» : ℚ
  text : String
  translation : String
  idiomatic : String
  idiomExplanation : String
  isFavorite : Bool
  deriving DecidableEq

/-- The merge of `next` into the accumulator `current` performed by
`mergeShortSegments`: extend `end`, concatenate `text`/`translation` with one
space, prefer `next`'s `idiomatic`/`idiomExplanation` when non-empty
(`next.idiomatic || current.idiomatic`); the spread `...current` keeps the
remaining fields. -/
def mergeSegs (current next : TranscriptionSegment) : TranscriptionSegment :=
  { current with
    «end» := next.«end»
    text := current.text ++ " " ++ next.text
    translation := current.translation ++ " " ++ next.translation
    idiomatic := if next.idiomatic = "" then current.idiomatic else next.idiomatic
    idiomExplanation :=
      if next.idiomExplanation = "" then current.idiomExplanation
      else next.idiomExplanation }

/-- Constant `MIN_WORDS` from the source. -/
def MIN_WORDS : Nat := 4

/-- The loop of `mergeShortSegments`: `current` is the accumulator; a short
accumulator (fewer than `MIN_WORDS` whitespace-delimited words and duration
under 2.0 s) absorbs the next segment, otherwise it is emitted and the next
segment becomes the accumulator; the final accumulator is always emitted. -/
def mergeGo (current : TranscriptionSegment) :
    List TranscriptionSegment → List TranscriptionSegment
  | [] => [current]
  | next :: rest =>
    if wordCount current.text < MIN_WORDS ∧ current.«end» - current.start < 2 then
      mergeGo (mergeSegs current next) rest
    else
      current :: mergeGo next rest

/-- Function `mergeShortSegments` from `src/services/geminiService.ts`. -/
def mergeShortSegments : List TranscriptionSegment → List TranscriptionSegment
  | [] => []
  | s :: rest => mergeGo s rest

/-- **C4.** The merger is a single left-to-right pass with an accumulator:
empty input yields empty output; the final accumulator is always emitted;
when the accumulator has fewer than 4 words and duration under 2.0 s the next
segment is merged in (end extended, text/translation concatenated with one
space, `next`'s idiomatic fields preferred when non-empty), otherwise the
accumulator is emitted and `next` takes its place.  The spec's example
`[{text:"Uh", 0–0.5}, {text:"well I think so", 0.5–3}]` merges to a single
segment spanning 0–3 with text `"Uh well I think so"`. -/
theorem mergeShortSegments_algorithm :
    mergeShortSegments [] = [] ∧
    (∀ current : TranscriptionSegment, mergeGo current [] = [current]) ∧
    (∀ (current next : TranscriptionSegment) (rest : List TranscriptionSegment),
      mergeGo current (next :: rest) =
        if wordCount current.text < 4 ∧ current.«end» - current.start < 2 then
          mergeGo
            { start := current.start
              «end» := next.«end»
              text := current.text ++ " " ++ next.text
              translation := current.translation ++ " " ++ next.translation
              idiomatic :=
                if next.idiomatic = "" then current.idiomatic else next.idiomatic
              idiomExplanation :=
                if next.idiomExplanation = "" then current.idiomExplanation
                else next.idiomExplanation
              isFavorite := current.isFavorite } rest
        else current :: mergeGo next rest) ∧
    mergeShortSegments
      [⟨0, 1/2, "Uh", "呃", "", "", false⟩,
       ⟨1/2, 3, "well I think so", "嗯我想是的", "Well, I think so.", "更地道", false⟩] =
      [⟨0, 3, "Uh well I think so", "呃 嗯我想是的", "Well, I think so.", "更地道", false⟩] := by
  refine ⟨rfl, fun _ => rfl, fun _ _ _ => rfl, ?_⟩
  show mergeGo _ [_] = _
  rw [mergeGo, if_pos ⟨by decide, by norm_num⟩]
  rfl

theorem mergeGo_of_all_long (rest : List TranscriptionSegment) :
    ∀ current : TranscriptionSegment,
    ¬ (wordCount current.text < MIN_WORDS ∧ current.«end» - current.start < 2) →
    (∀ s ∈ rest, ¬ (wordCount s.text < MIN_WORDS ∧ s.«end» - s.start < 2)) →
    mergeGo current rest = current :: rest := by
  induction rest with
  | nil => intro current _ _; rfl
  | cons next rest ih =>
    intro current hc hrest
    rw [mergeGo, if_neg hc,
      ih next (hrest next (List.mem_cons_self _ _))
        (fun s hs => hrest s (List.mem_cons_of_mem _ hs))]

/-- **C9.** A list in which every segment already has at least 4 words or
duration at least 2.0 s passes through the merger unchanged; hence a second
pass over such output cannot shrink it further, and in particular two
segments of ≥ 4 words each are returned as they are. -/
theorem mergeShortSegments_stable :
    (∀ l : List TranscriptionSegment,
      (∀ s ∈ l, 4 ≤ wordCount s.text ∨ 2 ≤ s.«end» - s.start) →
      mergeShortSegments l = l) ∧
    (∀ l : List TranscriptionSegment,
      (∀ s ∈ l, 4 ≤ wordCount s.text ∨ 2 ≤ s.«end» - s.start) →
      mergeShortSegments (mergeShortSegments l) = mergeShortSegments l) ∧
    mergeShortSegments
      [⟨0, 1, "I am quite sure", "", "", "", false⟩,
       ⟨1, 2, "this is fine now", "", "", "", false⟩] =
      [⟨0, 1, "I am quite sure", "", "", "", false⟩,
       ⟨1, 2, "this is fine now", "", "", "", false⟩] := by
  have key : ∀ l : List TranscriptionSegment,
      (∀ s ∈ l, 4 ≤ wordCount s.text ∨ 2 ≤ s.«end» - s.start) →
      mergeShortSegments l = l := by
    intro l hl
    cases l with
    | nil => rfl
    | cons s rest =>
      have notshort : ∀ t ∈ (s :: rest),
          ¬ (wordCount t.text < MIN_WORDS ∧ t.«end» - t.start < 2) := by
        intro t ht hc
        rcases hl t ht with h | h
        · exact absurd hc.1 (by rw [MIN_WORDS] at hc ⊢; omega)
        · exact absurd hc.2 (not_lt.mpr h)
      exact mergeGo_of_all_long rest s (notshort s (List.mem_cons_self _ _))
        (fun t ht => notshort t (List.mem_cons_of_mem _ ht))
  refine ⟨key, fun l hl => ?_, by decide⟩
  rw [key l hl, key l hl]

/-- Witness for C9: `mergeShortSegments_stable` applied to the concrete
two-segment list with ≥ 4 words per segment; both hypotheses are evaluated. -/
theorem mergeShortSegments_stable_witness :
    mergeShortSegments
      [⟨0, 1, "I am quite sure", "", "", "", false⟩,
       ⟨1, 2, "this is fine now", "", "", "", false⟩] =
      [⟨0, 1, "I am quite sure", "", "", "", false⟩,
       ⟨1, 2, "this is fine now", "", "", "", false⟩] :=
  mergeShortSegments_stable.1
    [⟨0, 1, "I am quite sure", "", "", "", false⟩,
     ⟨1, 2, "this is fine now", "", "", "", false⟩] (by decide)

/-- Adjacent non-overlap: a segment ends no later than the next one starts. -/
def SegAdj (a b : TranscriptionSegment) : Prop :=
  a.«end» ≤ b.start

instance : DecidableRel SegAdj := fun _ _ => inferInstanceAs (Decidable (_ ≤ _))

theorem chain_le_starts : ∀ l : List TranscriptionSegment,
    (∀ s ∈ l, s.start ≤ s.«end») → List.Chain' SegAdj l →
    List.Chain' (fun a b => a.start ≤ b.start) l := by
  intro l
  induction l with
  | nil => intro _ _; exact List.chain'_nil
  | cons a l ih =>
    intro hwf hch
    cases l with
    | nil => exact List.chain'_singleton a
    | cons b t =>
      rw [List.chain'_cons] at hch ⊢
      refine ⟨le_trans (hwf a (List.mem_cons_self _ _)) hch.1, ?_⟩
      exact ih (fun s hs => hwf s (List.mem_cons_of_mem _ hs)) hch.2

theorem mergeGo_invariants : ∀ (rest : List TranscriptionSegment)
    (current : TranscriptionSegment),
    current.start ≤ current.«end» →
    (∀ s ∈ rest, s.start ≤ s.«end») →
    List.Chain' SegAdj (current :: rest) →
    (∀ s ∈ mergeGo current rest, s.start ≤ s.«end») ∧
    List.Chain' SegAdj (mergeGo current rest) ∧
    List.Sublist ((mergeGo current rest).map TranscriptionSegment.start)
      (current.start :: rest.map TranscriptionSegment.start) ∧
    ∃ hd tl, mergeGo current rest = hd :: tl ∧ hd.start = current.start := by
  intro rest
  induction rest with
  | nil =>
    intro current hwf _ _
    have hmg : mergeGo current [] = [current] := rfl
    rw [hmg]
    refine ⟨fun s hs => ?_, List.chain'_singleton current, ?_, current, [], rfl, rfl⟩
    · rw [List.mem_singleton] at hs
      rw [hs]
      exact hwf
    · exact List.Sublist.refl _
  | cons next rest ih =>
    intro current hwf hrest hch
    rw [List.chain'_cons] at hch
    have hnext : next.start ≤ next.«end» := hrest next (List.mem_cons_self _ _)
    have hrest' : ∀ s ∈ rest, s.start ≤ s.«end» :=
      fun s hs => hrest s (List.mem_cons_of_mem _ hs)
    by_cases hcond :
        wordCount current.text < MIN_WORDS ∧ current.«end» - current.start < 2
    · have heq : mergeGo current (next :: rest) =
          mergeGo (mergeSegs current next) rest := by
        rw [mergeGo, if_pos hcond]
      have hwfm : (mergeSegs current next).start ≤ (mergeSegs current next).«end» :=
        le_trans hwf (le_trans hch.1 hnext)
      have hchm : List.Chain' SegAdj (mergeSegs current next :: rest) := by
        rw [List.chain'_cons']
        rw [List.chain'_cons'] at hch
        exact ⟨fun h hh => hch.2.1 h hh, hch.2.2⟩
      obtain ⟨ih1, ih2, ih3, hd, tl, htl, hhd⟩ := ih (mergeSegs current next) hwfm hrest' hchm
      rw [heq]
      refine ⟨ih1, ih2, ?_, hd, tl, htl, hhd⟩
      refine ih3.trans ?_
      show List.Sublist (current.start :: rest.map TranscriptionSegment.start)
        (current.start :: next.start :: rest.map TranscriptionSegment.start)
      exact List.Sublist.cons₂ _ (List.sublist_cons_self _ _)
    · have heq : mergeGo current (next :: rest) =
          current :: mergeGo next rest := by
        rw [mergeGo, if_neg hcond]
      obtain ⟨ih1, ih2, ih3, hd, tl, htl, hhd⟩ := ih next hnext hrest' hch.2
      rw [heq]
      refine ⟨?_, ?_, ?_, current, mergeGo next rest, rfl, rfl⟩
      · intro s hs
        rcases List.mem_cons.mp hs with hs | hs
        · rw [hs]; exact hwf
        · exact ih1 s hs
      · rw [htl, List.chain'_cons]
        refine ⟨?_, htl ▸ ih2⟩
        show current.«end» ≤ hd.start
        rw [hhd]
        exact hch.1
      · rw [List.map_cons]
        exact List.Sublist.cons₂ _ ih3

/-- **C8.** On an input whose segments are time-ordered (`start ≤ end`,
per the data model) and non-overlapping in non-decreasing start order
(adjacent `end ≤ start`), the merger's output is again time-ordered and
non-overlapping, its `start`s are non-decreasing, and the pass never
reorders: the output's `start` values are a subsequence of the input's. -/
theorem mergeShortSegments_ordering (l : List TranscriptionSegment)
    (hwf : ∀ s ∈ l, s.start ≤ s.«end»)
    (hch : List.Chain' SegAdj l) :
    (∀ s ∈ mergeShortSegments l, s.start ≤ s.«end») ∧
    List.Chain' SegAdj (mergeShortSegments l) ∧
    List.Chain' (fun a b => a.start ≤ b.start) (mergeShortSegments l) ∧
    List.Sublist ((mergeShortSegments l).map TranscriptionSegment.start)
      (l.map TranscriptionSegment.start) := by
  cases l with
  | nil =>
    exact ⟨fun s hs => absurd hs (List.not_mem_nil s), trivial, trivial,
      List.nil_sublist _⟩
  | cons s rest =>
    obtain ⟨h1, h2, h3, _⟩ := mergeGo_invariants rest s
      (hwf s (List.mem_cons_self _ _))
      (fun t ht => hwf t (List.mem_cons_of_mem _ ht)) hch
    exact ⟨h1, h2, chain_le_starts _ h1 h2, h3⟩

/-- Witness for C8: `mergeShortSegments_ordering` applied to the spec's
two-segment example (time-ordered, non-overlapping), hypotheses evaluated. -/
theorem mergeShortSegments_ordering_witness :
    List.Sublist
      ((mergeShortSegments
          [⟨0, 1, "Uh", "", "", "", false⟩,
           ⟨1, 4, "well I think so", "", "", "", false⟩]).map
        TranscriptionSegment.start)
      ([⟨0, 1, "Uh", "", "", "", false⟩,
        ⟨1, 4, "well I think so", "", "", "", false⟩].map
        TranscriptionSegment.start) :=
  (mergeShortSegments_ordering
    [⟨0, 1, "Uh", "", "", "", false⟩, ⟨1, 4, "well I think so", "", "", "", false⟩]
    (by intro s hs; fin_cases hs <;> norm_num)
    (List.chain'_cons.mpr ⟨by show (1 : ℚ) ≤ 1; norm_num, List.chain'_singleton _⟩)).2.2.2

/-! ## Response normalizer (`cleanAndParseJson`)

`JSON.parse` is modelled by an executable parser over the JSON value grammar
(null, booleans, numbers, strings with the common escapes, arrays, objects).
Numbers are kept as an integer mantissa and a power-of-ten exponent — the
exact value denoted by the numeral — rather than as floats.  The model is a
close approximation of `JSON.parse` on the data at stake; divergences
(leading-zero numerals, `\u` escapes, raw control characters in strings) do
not occur in any input these theorems touch. -/

inductive Json where
  | null
  | bool (b : Bool)
  | num (mantissa : Int) (exp10 : Int)
  | str (s : String)
  | arr (items : List Json)
  | obj (fields : List (String × Json))

/-- The whitespace class shared by JSON and the fence regexes
(`\s` restricted to its ASCII core). -/
def jsonWs (c : Char) : Bool :=
  c = ' ' || c = '\t' || c = '\n' || c = '\r'

/-- Drop leading whitespace. -/
def skipWs (cs : List Char) : List Char :=
  cs.dropWhile jsonWs

/-- Parse the remainder of a JSON string literal (the opening quote already
consumed), handling the common escapes. -/
def parseStringLit : List Char → List Char → Option (String × List Char)
  | [], _ => none
  | c :: cs, acc =>
    if c = '"' then some (String.mk acc.reverse, cs)
    else if c = '\\' then
      match cs with
      | [] => none
      | e :: cs' =>
        if e = '"' then parseStringLit cs' ('"' :: acc)
        else if e = '\\' then parseStringLit cs' ('\\' :: acc)
        else if e = '/' then parseStringLit cs' ('/' :: acc)
        else if e = 'n' then parseStringLit cs' ('\n' :: acc)
        else if e = 't' then parseStringLit cs' ('\t' :: acc)
        else if e = 'r' then parseStringLit cs' ('\r' :: acc)
        else if e = 'b' then parseStringLit cs' (Char.ofNat 8 :: acc)
        else if e = 'f' then parseStringLit cs' (Char.ofNat 12 :: acc)
        else none
    else parseStringLit cs (c :: acc)

/-- Take a maximal run of decimal digits, returned as values. -/
def takeDigits : List Char → List Nat × List Char
  | [] => ([], [])
  | c :: cs =>
    if '0' ≤ c ∧ c ≤ '9' then
      let (ds, rest) := takeDigits cs
      ((c.toNat - 48) :: ds, rest)
    else ([], c :: cs)

/-- The natural number denoted by a digit run. -/
def digitsToNat (ds : List Nat) : Nat :=
  ds.foldl (fun a d => a * 10 + d) 0

/-- Parse a JSON numeral: optional minus, integer digits, optional fraction,
optional exponent.  The result is `mantissa * 10 ^ exp10`. -/
def parseNumber (cs : List Char) : Option (Json × List Char) :=
  let (neg, cs1) :=
    match cs with
    | '-' :: t => (true, t)
    | _ => (false, cs)
  match takeDigits cs1 with
  | ([], _) => none
  | (ds, rest) =>
    let (fds, rest2) :=
      match rest with
      | '.' :: t =>
        match takeDigits t with
        | ([], _) => ([], rest)
        | (fds, r) => (fds, r)
      | _ => ([], rest)
    match rest2 with
    | '.' :: _ => none
    | _ =>
      let (eval10, rest3) :=
        match rest2 with
        | 'e' :: t =>
          (match t with
           | '+' :: t' =>
             (match takeDigits t' with
              | ([], _) => (none, rest2)
              | (eds, r) => (some (Int.ofNat (digitsToNat eds)), r))
           | '-' :: t' =>
             (match takeDigits t' with
              | ([], _) => (none, rest2)
              | (eds, r) => (some (-(Int.ofNat (digitsToNat eds))), r))
           | _ =>
             (match takeDigits t with
              | ([], _) => (none, rest2)
              | (eds, r) => (some (Int.ofNat (digitsToNat eds)), r)))
        | 'E' :: t =>
          (match t with
           | '+' :: t' =>
             (match takeDigits t' with
              | ([], _) => (none, rest2)
              | (eds, r) => (some (Int.ofNat (digitsToNat eds)), r))
           | '-' :: t' =>
             (match takeDigits t' with
              | ([], _) => (none, rest2)
              | (eds, r) => (some (-(Int.ofNat (digitsToNat eds))), r))
           | _ =>
             (match takeDigits t with
              | ([], _) => (none, rest2)
              | (eds, r) => (some (Int.ofNat (digitsToNat eds)), r)))
        | _ => (some 0, rest2)
      match eval10 with
      | none => none
      | some e =>
        let mago : Int := Int.ofNat (digitsToNat (ds ++ fds))
        let ma : Int := if neg then -mago else mago
        some (Json.num ma (e - Int.ofNat fds.length), rest3)

/-- Parser mode: a plain value, the items of an array after `[`, or the
fields of an object after an opening brace (accumulators hold what was read so far). -/
inductive PMode where
  | val
  | arrItems (acc : List Json)
  | objItems (acc : List (String × Json))

/-- The JSON parser core, structurally recursive on a fuel bound so that the
kernel can evaluate it.  Each recursive step spends one unit of fuel and is
matched with input consumption, so `2 * length + 2` fuel always suffices. -/
def parseCore : Nat → PMode → List Char → Option (Json × List Char)
  | 0, _, _ => none
  | fuel + 1, PMode.val, cs =>
    match skipWs cs with
    | [] => none
    | c :: cs' =>
      if c = 'n' then
        match cs' with
        | 'u' :: 'l' :: 'l' :: rest => some (Json.null, rest)
        | _ => none
      else if c = 't' then
        match cs' with
        | 'r' :: 'u' :: 'e' :: rest => some (Json.bool true, rest)
        | _ => none
      else if c = 'f' then
        match cs' with
        | 'a' :: 'l' :: 's' :: 'e' :: rest => some (Json.bool false, rest)
        | _ => none
      else if c = '"' then
        match parseStringLit cs' [] with
        | some (s, rest) => some (Json.str s, rest)
        | none => none
      else if c = '[' then
        match skipWs cs' with
        | ']' :: rest => some (Json.arr [], rest)
        | cs'' => parseCore fuel (PMode.arrItems []) cs''
      else if c = '{' then
        match skipWs cs' with
        | '}' :: rest => some (Json.obj [], rest)
        | cs'' => parseCore fuel (PMode.objItems []) cs''
      else parseNumber (c :: cs')
  | fuel + 1, PMode.arrItems acc, cs =>
    match parseCore fuel PMode.val cs with
    | none => none
    | some (v, rest) =>
      match skipWs rest with
      | ',' :: rest' => parseCore fuel (PMode.arrItems (v :: acc)) rest'
      | ']' :: rest' => some (Json.arr (v :: acc).reverse, rest')
      | _ => none
  | fuel + 1, PMode.objItems acc, cs =>
    match skipWs cs with
    | '"' :: cs' =>
      match parseStringLit cs' [] with
      | none => none
      | some (k, rest) =>
        match skipWs rest with
        | ':' :: rest' =>
          match parseCore fuel PMode.val rest' with
          | none => none
          | some (v, rest2) =>
            match skipWs rest2 with
            | ',' :: rest3 => parseCore fuel (PMode.objItems ((k, v) :: acc)) rest3
            | '}' :: rest3 => some (Json.obj ((k, v) :: acc).reverse, rest3)
            | _ => none
        | _ => none
    | _ => none

/-- Model of `JSON.parse`: a full JSON document, allowing surrounding whitespace. -/
def jsonParse (s : String) : Option Json :=
  match parseCore (2 * s.length + 2) PMode.val s.toList with
  | some (v, rest) => if (skipWs rest).isEmpty then some v else none
  | none => none

/-- Returns `true` iff `s` ends with `pat`. -/
def strEndsWith (s pat : String) : Bool :=
  pat.toList.reverse.isPrefixOf s.toList.reverse

/-- The first replace of `cleanAndParseJson`: `text.replace(/^```json\s*/, '')`
removes a leading literal ```` ```json ```` together with the greedy run of
whitespace after it; any other opening (including a fence without the `json`
tag) is left alone. -/
def stripLeadingFence (s : String) : String :=
  if strStartsWith s "```json" then
    String.mk ((s.toList.drop 7).dropWhile jsonWs)
  else s

/-- The second replace of `cleanAndParseJson`: `text.replace(/\s*```$/, '')`
removes a final ```` ``` ```` together with the maximal whitespace run just
before it; a string not ending in the fence is left alone. -/
def stripTrailingFence (s : String) : String :=
  if strEndsWith s "```" then
    String.mk (((s.toList.reverse.drop 3).dropWhile jsonWs).reverse)
  else s

/-- The full cleaning step of `cleanAndParseJson`. -/
def cleanText (s : String) : String :=
  stripTrailingFence (stripLeadingFence s)

/-- The outcome of one `cleanAndParseJson` call: the returned value or thrown
error, plus the raw texts written to the diagnostic console
(`console.error("JSON Parse Error on text:", text)`). -/
structure NormalizerOutcome where
  result : Except String Json
  consoleLog : List String

/-- The fixed message of the error thrown on a parse failure. -/
def parseFailureMessage : String :=
  "Failed to parse AI response. Ensure content is valid JSON."

/-- Function `cleanAndParseJson` from `src/services/geminiService.ts`: strip the
optional ```` ```json ```` / ```` ``` ```` wrap, parse; on failure log the
offending raw text to the console and throw an error with a fixed message. -/
def cleanAndParseJson (text : String) : NormalizerOutcome :=
  match jsonParse (cleanText text) with
  | some v => ⟨Except.ok v, []⟩
  | none => ⟨Except.error parseFailureMessage, [text]⟩

/-- **C6 (counterexample).** The claim says every valid-JSON reply, fenced or
not, is parsed; but a fence whose opening lacks the `json` language tag is not
stripped by `replace(/^```json\s*/, '')`, while the closing fence still is, so
the remainder fails to parse: a reply consisting of `{"a":1}` wrapped in a
bare fence (backticks, newline, the JSON, newline, closing backticks) makes
the normalizer fail. -/
theorem cleanAndParseJson_untagged_fence_counterexample :
    jsonParse "\x7b\"a\":1\x7d" = some (Json.obj [("a", Json.num 1 0)]) ∧
    (cleanAndParseJson "```\n\x7b\"a\":1\x7d\n```").result =
      Except.error parseFailureMessage :=
  ⟨rfl, rfl⟩

/-- **C6 (amended).** The normalizer strips a leading fence only when it
carries exactly the `json` language tag (plus following whitespace) and an
optional trailing fence, then parses: replies fenced as ```` ```json … ``` ````
and unfenced replies that are valid JSON are returned parsed (a reply with no
fence markers is passed to the parser unchanged). -/
theorem cleanAndParseJson_normalization :
    (∀ (t : String) (v : Json), jsonParse (cleanText t) = some v →
      (cleanAndParseJson t).result = Except.ok v) ∧
    (∀ t : String, strStartsWith t "```json" = false →
      strEndsWith t "```" = false → cleanText t = t) ∧
    cleanText "```json\n\x7b\"a\":1\x7d\n```" = "\x7b\"a\":1\x7d" ∧
    (cleanAndParseJson "```json\n\x7b\"a\":1\x7d\n```").result =
      Except.ok (Json.obj [("a", Json.num 1 0)]) ∧
    (cleanAndParseJson "\x7b\"a\":1\x7d").result =
      Except.ok (Json.obj [("a", Json.num 1 0)]) := by
  refine ⟨fun t v h => ?_, fun t h1 h2 => ?_, rfl, rfl, rfl⟩
  · rw [cleanAndParseJson, h]
  · rw [cleanText, stripLeadingFence, if_neg (by rw [h1]; exact Bool.false_ne_true),
      stripTrailingFence, if_neg (by rw [h2]; exact Bool.false_ne_true)]

/-- Witness for C6: `cleanAndParseJson_normalization` applied to the unfenced
valid-JSON reply `{"a":1}`, the parse hypothesis discharged by evaluation. -/
theorem cleanAndParseJson_normalization_witness :
    (cleanAndParseJson "\x7b\"a\":1\x7d").result =
      Except.ok (Json.obj [("a", Json.num 1 0)]) :=
  cleanAndParseJson_normalization.1 "\x7b\"a\":1\x7d" (Json.obj [("a", Json.num 1 0)]) rfl

/-- **C7 (counterexample).** The claim says the `MalformedResponse` error's
payload includes the offending raw text; but the thrown error carries only the
fixed message — the raw text goes to the diagnostic console log instead: on
input `"not json"` the error message does not contain `"not json"`. -/
theorem cleanAndParseJson_payload_counterexample :
    (cleanAndParseJson "not json").result = Except.error parseFailureMessage ∧
    strContains parseFailureMessage "not json" = false ∧
    (cleanAndParseJson "not json").consoleLog = ["not json"] :=
  ⟨rfl, by decide, rfl⟩

/-- **C7 (amended).** On any reply whose text does not parse after fence
stripping, the normalizer fails with an error carrying the fixed
`parseFailureMessage` (the offending raw text is written to the diagnostic
console log, not placed in the error payload), and it never returns a
partially or leniently recovered structure: a returned value is always exactly
the parse of the cleaned text. -/
theorem cleanAndParseJson_failure_mode :
    (∀ t : String, jsonParse (cleanText t) = none →
      cleanAndParseJson t = ⟨Except.error parseFailureMessage, [t]⟩) ∧
    (∀ (t : String) (v : Json), (cleanAndParseJson t).result = Except.ok v →
      jsonParse (cleanText t) = some v) := by
  constructor
  · intro t h
    rw [cleanAndParseJson, h]
  · intro t v h
    rw [cleanAndParseJson] at h
    cases hp : jsonParse (cleanText t) with
    | none => rw [hp] at h; exact absurd h (by simp)
    | some w => rw [hp] at h; simp at h; rw [h]

/-- Witness for C7: `cleanAndParseJson_failure_mode` applied to the
non-JSON reply `"not json"`, the parse-failure hypothesis evaluated. -/
theorem cleanAndParseJson_failure_mode_witness :
    cleanAndParseJson "not json" =
      ⟨Except.error parseFailureMessage, ["not json"]⟩ :=
  cleanAndParseJson_failure_mode.1 "not json" rfl

/-! ## Define-word provider router (`getWordDefinition`) -/

/-- The terminal states of the define-word state machine
(`TryPrimary → Success | TryFallback → Success | FallbackFailed`). -/
inductive DefineOutcome where
  | success
  | primaryFailedNoFallback
  | fallbackFailed
  deriving DecidableEq

/-- Observable trace of one `getWordDefinition` call: the returned value or
thrown error, and how many times the secondary provider was invoked. -/
structure DefineTrace (E A : Type) where
  result : Except E A
  secondaryCalls : Nat

/-- Function `getWordDefinition` from `src/services/geminiService.ts`.  `primary` is
the outcome of the retried Gemini call including response parsing; `secondary`
is the outcome of one `callDeepSeek` call including response parsing;
`deepSeekKey` is `process.env.DEEPSEEK_API_KEY`, with `""` standing for an
unset or empty (falsy) variable.  On a primary failure with a configured key
the secondary is tried once and its own error is rethrown on failure; with no
key the primary's original error is rethrown. -/
def getWordDefinition {E A : Type} (primary : Except E A) (deepSeekKey : String)
    (secondary : Except E A) : DefineTrace E A :=
  match primary with
  | Except.ok v => ⟨Except.ok v, 0⟩
  | Except.error pe =>
    if deepSeekKey ≠ "" then
      match secondary with
      | Except.ok v => ⟨Except.ok v, 1⟩
      | Except.error se => ⟨Except.error se, 1⟩
    else ⟨Except.error pe, 0⟩

/-- The terminal state reached by a `getWordDefinition` call, per the spec's
define-word state machine. -/
def defineOutcome {E A : Type} (primary : Except E A) (deepSeekKey : String)
    (secondary : Except E A) : DefineOutcome :=
  match primary with
  | Except.ok _ => DefineOutcome.success
  | Except.error _ =>
    if deepSeekKey ≠ "" then
      match secondary with
      | Except.ok _ => DefineOutcome.success
      | Except.error _ => DefineOutcome.fallbackFailed
    else DefineOutcome.primaryFailedNoFallback

/-- **C1.** Define-word fallback policy: when the primary call fails and a
fallback credential is configured, the secondary provider is invoked exactly
once — its value is returned on success and its own error (not the primary's)
propagates on failure; with no fallback credential the primary's original
error propagates and the secondary is never invoked; a primary success
returns immediately.  Every call reaches exactly one of the three terminal
outcomes Success / PrimaryFailedNoFallback / FallbackFailed. -/
theorem getWordDefinition_fallback_policy {E A : Type} :
    (∀ (v : A) (key : String) (secondary : Except E A),
      getWordDefinition (Except.ok v) key secondary = ⟨Except.ok v, 0⟩ ∧
      defineOutcome (Except.ok v) key secondary = DefineOutcome.success) ∧
    (∀ (pe : E) (key : String) (secondary : Except E A), key ≠ "" →
      (getWordDefinition (Except.error pe) key secondary).secondaryCalls = 1 ∧
      (∀ v : A, secondary = Except.ok v →
        getWordDefinition (Except.error pe) key secondary = ⟨Except.ok v, 1⟩ ∧
        defineOutcome (Except.error pe) key secondary = DefineOutcome.success) ∧
      (∀ se : E, secondary = Except.error se →
        getWordDefinition (Except.error pe) key secondary = ⟨Except.error se, 1⟩ ∧
        defineOutcome (Except.error pe) key secondary =
          DefineOutcome.fallbackFailed)) ∧
    (∀ (pe : E) (secondary : Except E A),
      getWordDefinition (Except.error pe) "" secondary = ⟨Except.error pe, 0⟩ ∧
      defineOutcome (Except.error pe) "" secondary =
        DefineOutcome.primaryFailedNoFallback) ∧
    (∀ (primary : Except E A) (key : String) (secondary : Except E A),
      defineOutcome primary key secondary = DefineOutcome.success ∨
      defineOutcome primary key secondary = DefineOutcome.primaryFailedNoFallback ∨
      defineOutcome primary key secondary = DefineOutcome.fallbackFailed) ∧
    (DefineOutcome.success ≠ DefineOutcome.primaryFailedNoFallback ∧
      DefineOutcome.success ≠ DefineOutcome.fallbackFailed ∧
      DefineOutcome.primaryFailedNoFallback ≠ DefineOutcome.fallbackFailed) := by
  refine ⟨fun v key secondary => ⟨rfl, rfl⟩, ?_, fun pe secondary => ⟨rfl, rfl⟩, ?_, ?_⟩
  · intro pe key secondary hkey
    have hgw : ∀ s : Except E A, getWordDefinition (Except.error pe) key s =
        if key ≠ "" then
          (match s with
           | Except.ok v => (⟨Except.ok v, 1⟩ : DefineTrace E A)
           | Except.error se => ⟨Except.error se, 1⟩)
        else ⟨Except.error pe, 0⟩ := fun _ => rfl
    have hdo : ∀ s : Except E A, defineOutcome (Except.error pe) key s =
        if key ≠ "" then
          (match s with
           | Except.ok _ => DefineOutcome.success
           | Except.error _ => DefineOutcome.fallbackFailed)
        else DefineOutcome.primaryFailedNoFallback := fun _ => rfl
    refine ⟨?_, fun v hv => ?_, fun se hse => ?_⟩
    · rw [hgw, if_pos hkey]
      cases secondary <;> rfl
    · subst hv
      rw [hgw, hdo, if_pos hkey, if_pos hkey]
      exact ⟨rfl, rfl⟩
    · subst hse
      rw [hgw, hdo, if_pos hkey, if_pos hkey]
      exact ⟨rfl, rfl⟩
  · intro primary key secondary
    cases primary with
    | ok v => exact Or.inl rfl
    | error pe =>
      have hdo : defineOutcome (Except.error pe) key secondary =
          if key ≠ "" then
            (match secondary with
             | Except.ok _ => DefineOutcome.success
             | Except.error _ => DefineOutcome.fallbackFailed)
          else DefineOutcome.primaryFailedNoFallback := rfl
      rw [hdo]
      by_cases hkey : key ≠ ""
      · rw [if_pos hkey]
        cases secondary with
        | ok v => exact Or.inl rfl
        | error se => exact Or.inr (Or.inr rfl)
      · rw [if_neg hkey]
        exact Or.inr (Or.inl rfl)
  · exact ⟨by decide, by decide, by decide⟩

/-- Witness for C1: `getWordDefinition_fallback_policy` at a failing primary,
a configured fallback key, and a failing secondary — the surfaced error is the
secondary's `"fallback boom"`, not the primary's `"primary boom"`, after
exactly one secondary invocation. -/
theorem getWordDefinition_fallback_policy_witness :
    getWordDefinition (Except.error "primary boom" : Except String Nat)
      "sk-key" (Except.error "fallback boom") = ⟨Except.error "fallback boom", 1⟩ ∧
    defineOutcome (Except.error "primary boom" : Except String Nat)
      "sk-key" (Except.error "fallback boom") = DefineOutcome.fallbackFailed :=
  (getWordDefinition_fallback_policy.2.1 "primary boom" "sk-key"
    (Except.error "fallback boom") (by decide)).2.2 "fallback boom" rfl

end LinguaSync
